import Mathlib

/-!
# Verification of the `ra_vfs` virtual file system

A shallow embedding of the `ra_vfs` crate (files `src/lib.rs`, `src/roots.rs`,
`src/io.rs`) and proofs about it.

Modelling conventions:
* Rust `String`s are byte lists (`List Nat`, each entry `< 256` in practice);
  `normalize_newlines` and all text handling in the source operate on bytes.
* Paths are component lists (`List String`).  An absolute `PathBuf` such as
  `/foo/bar` is `["foo", "bar"]`; a `RelativePathBuf` is likewise its list of
  components (the empty list is the empty relative path `""`).
  `Path::strip_prefix` is component-wise prefix removal, and
  `as_os_str().len()` of an absolute Unix path is `Σ (1 + |component|)`.
* Filesystem reads are passed in as explicit parameters (`Option (List Nat)`
  is the result of `fs::read_to_string`, `none` meaning the read failed), and
  `Path::canonicalize` is a function parameter of `Roots.new`.
* Rust panics (`expect`, `unwrap`) in fallible public operations are modelled
  by an `Option` result, `none` standing for the panic.
-/

namespace RaVfs

/-- Embeds `LineEndings` from `src/lib.rs`; `Default` is `Unix`. -/
inductive LineEndings where
  | Unix
  | Dos
deriving DecidableEq, Repr

/-- The in-place compaction loop of `normalize_newlines` (`src/lib.rs`,
`find_crlf` / `copy_within`): scanning left to right over the original bytes,
every `0x0D` byte whose immediate successor byte is `0x0A` is dropped; all
other bytes are kept in order.  The scan never re-examines bytes made adjacent
by a removal, because `find_crlf` always searches the original suffix. -/
def normalize_loop : List Nat → List Nat
  | [] => []
  | [b] => [b]
  | b :: c :: rest =>
    if b = 13 ∧ c = 10 then 10 :: normalize_loop rest
    else b :: normalize_loop (c :: rest)

/-- Embeds `normalize_newlines` from `src/lib.rs`: if the input contains no `0x0D`
byte it is returned unchanged with `LineEndings::Unix`; otherwise the
compaction loop runs and `LineEndings::Dos` is returned. -/
def normalize_newlines (src : List Nat) : List Nat × LineEndings :=
  if 13 ∈ src then (normalize_loop src, LineEndings.Dos)
  else (src, LineEndings.Unix)

/-- Pair every byte with its successor byte (if any); specification helper. -/
def withNext : List Nat → List (Nat × Option Nat)
  | [] => []
  | [b] => [(b, none)]
  | b :: c :: rest => (b, some c) :: withNext (c :: rest)

/-- Independent characterisation of CRLF removal: keep each byte unless it is
`0x0D` and the byte following it in the input is `0x0A`. -/
def crlfSpec (l : List Nat) : List Nat :=
  (withNext l).filterMap (fun p => if p.1 = 13 ∧ p.2 = some 10 then none else some p.1)

/-- Whether a byte list contains the two-byte substring `0x0D 0x0A`. -/
def hasCRLF : List Nat → Bool
  | 13 :: 10 :: _ => true
  | _ :: rest => hasCRLF rest
  | [] => false

/-- A UTF-8 continuation byte. -/
def contB (b : Nat) : Bool := 0x80 ≤ b && b ≤ 0xBF

/-- One continuation byte (two-byte sequences). -/
def utf8Cont1 : List Nat → Option (List Nat)
  | c1 :: t => if contB c1 then some t else none
  | [] => none

/-- A first continuation byte restricted to `[lo, hi]`, then one ordinary
continuation byte (three-byte sequences). -/
def utf8Cont2 (lo hi : Nat) : List Nat → Option (List Nat)
  | c1 :: c2 :: t => if (lo ≤ c1 && c1 ≤ hi) && contB c2 then some t else none
  | _ => none

/-- A first continuation byte restricted to `[lo, hi]`, then two ordinary
continuation bytes (four-byte sequences). -/
def utf8Cont3 (lo hi : Nat) : List Nat → Option (List Nat)
  | c1 :: c2 :: c3 :: t =>
    if ((lo ≤ c1 && c1 ≤ hi) && contB c2) && contB c3 then some t else none
  | _ => none

/-- Validate one strict UTF-8 encoded scalar value (RFC 3629: no overlong
encodings, no surrogates, nothing above `U+10FFFF`) at the head of the byte
list, returning the remaining bytes. -/
def utf8Step : List Nat → Option (List Nat)
  | [] => none
  | b :: t =>
    if b ≤ 0x7F then some t
    else if 0xC2 ≤ b && b ≤ 0xDF then utf8Cont1 t
    else if b = 0xE0 then utf8Cont2 0xA0 0xBF t
    else if (0xE1 ≤ b && b ≤ 0xEC) || b = 0xEE || b = 0xEF then utf8Cont2 0x80 0xBF t
    else if b = 0xED then utf8Cont2 0x80 0x9F t
    else if b = 0xF0 then utf8Cont3 0x90 0xBF t
    else if 0xF1 ≤ b && b ≤ 0xF3 then utf8Cont3 0x80 0xBF t
    else if b = 0xF4 then utf8Cont3 0x80 0x8F t
    else none

/-- Fuelled iteration of `utf8Step`; the fuel only needs to dominate the list
length, since every step consumes at least one byte. -/
def utf8Go : Nat → List Nat → Bool
  | _, [] => true
  | 0, _ :: _ => false
  | fuel + 1, b :: t =>
    match utf8Step (b :: t) with
    | some rest => utf8Go fuel rest
    | none => false

/-- Strict UTF-8 validity of a byte list. -/
def utf8Valid (l : List Nat) : Bool := utf8Go l.length l

/-- The `as_os_str().len()` of an absolute Unix path given as its component list:
one separator character per component plus the component lengths. -/
def osLen (p : List String) : Nat := p.foldl (fun n c => n + 1 + c.length) 0

/-- Stable insertion of `a` into a list sorted descending by `key`:  `a` is
placed before the first element whose key is not larger, as Rust's stable
`sort_by_key(Reverse(len))` would leave it relative to equal keys. -/
def insertByKeyDesc (key : α → Nat) (a : α) : List α → List α
  | [] => [a]
  | b :: t => if key b ≤ key a then a :: b :: t else b :: insertByKeyDesc key a t

/-- Stable sort, descending by `key`; extensionally equal to Rust's stable
`sort_by_key(|it| Reverse(key(it)))`. -/
def sortByKeyDesc (key : α → Nat) : List α → List α
  | [] => []
  | a :: t => insertByKeyDesc key a (sortByKeyDesc key t)

/-- Helper of `dedupAdj`: `prev` is the most recently retained element;
elements equal to it are dropped. -/
def dedupAdjGo (eqb : α → α → Bool) : α → List α → List α
  | _, [] => []
  | prev, b :: t =>
    if eqb prev b then dedupAdjGo eqb prev t else b :: dedupAdjGo eqb b t

/-- Rust's `Vec::dedup`: remove all but the first of consecutive elements
equal under `eqb`. -/
def dedupAdj (eqb : α → α → Bool) : List α → List α
  | [] => []
  | a :: t => a :: dedupAdjGo eqb a t

/-- The `Filter` trait of `src/roots.rs`: two pure predicates on root-relative
paths. -/
structure Filter where
  include_dir : List String → Bool
  include_file : List String → Bool

/-- Embeds `RootEntry` from `src/roots.rs`: a root path with its filter.  Its Rust
`PartialEq` compares paths only. -/
structure RootEntry where
  path : List String
  filter : Filter

/-- Embeds `FileType` from `src/roots.rs`. -/
inductive FileType where
  | File
  | Dir
deriving DecidableEq, Repr

/-- Embeds `RootData` from `src/roots.rs`. -/
structure RootData where
  entry : RootEntry
  canonical_path : Option (List String)
  excluded_dirs : List (List String)

/-- The `rel_path` helper of `src/roots.rs`: `path.strip_prefix(base)`,
component-wise. -/
def rel_path (base p : List String) : Option (List String) :=
  if base.isPrefixOf p then some (p.drop base.length) else none

/-- Embeds `RelativePath::parent`: `none` for the empty path, otherwise the path
without its last component (the parent of a one-component path is the empty
relative path). -/
def relParent : List String → Option (List String)
  | [] => none
  | l => some l.dropLast

/-- Embeds `RootData::new` from `src/roots.rs`: canonicalise the entry path (the
ambient filesystem's resolution is the parameter `canon`) and store the
canonical path only when it differs. -/
def RootData.new (canon : List String → Option (List String)) (entry : RootEntry)
    (excluded_dirs : List (List String)) : RootData :=
  let c := canon entry.path
  { entry := entry
    canonical_path := if c = some entry.path then none else c
    excluded_dirs := excluded_dirs }

/-- Embeds `RootData::is_included` from `src/roots.rs`: reject a relative path equal
to an excluded (nested-root) directory, then require the immediate parent to
be an included directory, then apply the filter according to the expected
type. -/
def RootData.is_included (d : RootData) (rel : List String) (expected : FileType) :
    Bool :=
  if rel ∈ d.excluded_dirs then false
  else
    let parent_included :=
      ((relParent rel).map (fun q => d.entry.filter.include_dir q)).getD true
    if !parent_included then false
    else
      match expected with
      | FileType.File => d.entry.filter.include_file rel
      | FileType.Dir => d.entry.filter.include_dir rel

/-- The `to_relative_path` helper of `src/roots.rs`: relative path with
filtering, applied only when the relative path is non-empty. -/
def to_relative_path (base p : List String) (d : RootData) (expected : FileType) :
    Option (List String) :=
  (rel_path base p).bind (fun rel =>
    if rel = [] then some rel
    else if d.is_included rel expected then some rel else none)

/-- Embeds `Roots` from `src/roots.rs`. -/
structure Roots where
  roots : List RootData

/-- Indexing `roots[root]`; the source indexes unconditionally and every
`VfsRoot` it ever constructs is in bounds, so out-of-bounds access yields a
reject-everything dummy here. -/
def rootD (r : Roots) (i : Nat) : RootData :=
  r.roots.getD i
    { entry := { path := [], filter := ⟨fun _ => false, fun _ => false⟩ }
      canonical_path := none
      excluded_dirs := [] }

/-- Embeds `Roots::new` from `src/roots.rs`: stable-sort the entries by descending
`as_os_str().len()`, `dedup` them (adjacent equality of paths), then give each
root the relative paths of the strictly earlier (longer) roots nested inside
it as `excluded_dirs`. -/
def Roots.new (canon : List String → Option (List String))
    (paths : List RootEntry) : Roots :=
  let paths := dedupAdj (fun a b => a.path == b.path)
    (sortByKeyDesc (fun e => osLen e.path) paths)
  { roots := paths.enum.map (fun ie =>
      RootData.new canon ie.2
        ((paths.take ie.1).filterMap (fun it => rel_path ie.2.path it.path))) }

/-- Embeds `Roots::len`. -/
def Roots.len (r : Roots) : Nat := r.roots.length

/-- Embeds `Roots::contains` from `src/roots.rs`: try the configured path and then
the canonical path of the root. -/
def Roots.contains (r : Roots) (root : Nat) (p : List String) (expected : FileType) :
    Option (List String) :=
  let d := rootD r root
  (d.entry.path :: d.canonical_path.toList).findSome?
    (fun base => to_relative_path base p d expected)

/-- Embeds `Roots::find` from `src/roots.rs`: first root (in stored order, most
specific first) that contains the path. -/
def Roots.find (r : Roots) (p : List String) (expected : FileType) :
    Option (Nat × List String) :=
  (List.range r.roots.length).findSome?
    (fun i => (r.contains i p expected).map (fun rel => (i, rel)))

/-- Embeds `VfsChange` from `src/lib.rs`.  `VfsFile` and `VfsRoot` are the `Nat`
indices `file` and `root`. -/
inductive VfsChange where
  | AddRoot (root : Nat) (files : List (Nat × List String × List Nat))
  | AddFile (root : Nat) (file : Nat) (path : List String) (text : List Nat)
  | RemoveFile (root : Nat) (file : Nat) (path : List String)
  | ChangeFile (file : Nat) (text : List Nat)
deriving DecidableEq, Repr

/-- Embeds `VfsFileData` from `src/lib.rs`. -/
structure VfsFileData where
  root : Nat
  path : List String
  is_overlayed : Bool
  text : List Nat
  line_endings : LineEndings
deriving DecidableEq, Repr

instance : Inhabited VfsFileData :=
  ⟨{ root := 0, path := [], is_overlayed := false, text := []
     line_endings := LineEndings.Unix }⟩

/-- Embeds `TaskResult` from `src/io.rs`: what the I/O worker delivers to
`handle_task`. -/
inductive TaskResult where
  | BulkLoadRoot (root : Nat) (files : List (List String × List Nat × LineEndings))
  | SingleFile (root : Nat) (path : List String) (text : Option (List Nat))
      (line_endings : LineEndings)
deriving DecidableEq, Repr

/-- The `Vfs` state of `src/lib.rs`: the shared `roots`, the dense file table,
the root→files index, and the pending change log.  The `worker` handle is
I/O-thread plumbing and carries no state consulted by any modelled
operation. -/
structure Vfs where
  roots : Roots
  files : List VfsFileData
  root2files : Nat → List Nat
  pending_changes : List VfsChange

/-- Embeds `Vfs::file`: indexing `files[file]`.  The source indexes unconditionally;
every id it ever produces is in bounds. -/
def fileD (vfs : Vfs) (f : Nat) : VfsFileData := vfs.files.getD f default

/-- Embeds `Vfs::find_file` from `src/lib.rs`: the member of `root2files[root]`
whose path equals the given one (the source iterates a hash set; under the
one-live-file-per-path invariant at most one member matches). -/
def find_file (vfs : Vfs) (root : Nat) (path : List String) : Option Nat :=
  (vfs.root2files root).find? (fun f => (fileD vfs f).path == path)

/-- Embeds `Vfs::find_root` from `src/lib.rs`. -/
def find_root (vfs : Vfs) (p : List String) :
    Option (Nat × List String × Option Nat) :=
  (Roots.find vfs.roots p FileType.File).map
    (fun rr => (rr.1, rr.2, find_file vfs rr.1 rr.2))

/-- Embeds `Vfs::raw_add_file` from `src/lib.rs`: push a new file record and insert
its id into the root's index. -/
def raw_add_file (vfs : Vfs) (root : Nat) (path : List String) (text : List Nat)
    (line_endings : LineEndings) (is_overlayed : Bool) : Vfs × Nat :=
  let file := vfs.files.length
  ({ vfs with
      files := vfs.files ++
        [{ root := root, path := path, is_overlayed := is_overlayed,
           text := text, line_endings := line_endings }]
      root2files := fun r =>
        if r = root then vfs.root2files r ++ [file] else vfs.root2files r },
   file)

/-- Embeds `Vfs::raw_change_file` from `src/lib.rs`: replace the text and the overlay
flag (the stored `line_endings` are not touched). -/
def raw_change_file (vfs : Vfs) (file : Nat) (new_text : List Nat)
    (is_overlayed : Bool) : Vfs :=
  { vfs with
      files := vfs.files.set file
        { fileD vfs file with text := new_text, is_overlayed := is_overlayed } }

/-- Embeds `Vfs::raw_remove_file` from `src/lib.rs`: tombstone the slot (clear text
and path) and remove the id from the root's index.  The source asserts that
the id was present in the index; both call sites obtain the id from that very
index, so the assertion cannot fire and is not modelled. -/
def raw_remove_file (vfs : Vfs) (file : Nat) : Vfs :=
  { vfs with
      files := vfs.files.set file
        { fileD vfs file with text := [], path := [] }
      root2files := fun r =>
        if r = (fileD vfs file).root then
          (vfs.root2files r).filter (fun x => x ≠ file)
        else vfs.root2files r }

/-- Embeds `Vfs::add_file_event` from `src/lib.rs`. -/
def add_file_event (vfs : Vfs) (root : Nat) (path : List String) (text : List Nat)
    (line_endings : LineEndings) (is_overlay : Bool) : Vfs × Option Nat :=
  let fr := raw_add_file vfs root path text line_endings is_overlay
  ({ fr.1 with pending_changes := fr.1.pending_changes ++
      [VfsChange.AddFile root fr.2 path text] },
   some fr.2)

/-- Embeds `Vfs::change_file_event` from `src/lib.rs`. -/
def change_file_event (vfs : Vfs) (file : Nat) (text : List Nat)
    (is_overlay : Bool) : Vfs :=
  let vfs := raw_change_file vfs file text is_overlay
  { vfs with pending_changes := vfs.pending_changes ++
      [VfsChange.ChangeFile file text] }

/-- Embeds `Vfs::remove_file_event` from `src/lib.rs`. -/
def remove_file_event (vfs : Vfs) (root : Nat) (path : List String) (file : Nat) :
    Vfs :=
  let vfs := raw_remove_file vfs file
  { vfs with pending_changes := vfs.pending_changes ++
      [VfsChange.RemoveFile root file path] }

/-- The crate-level `read_to_string` of `src/lib.rs`: a raw filesystem read
(the parameter) followed by newline normalization. -/
def read_to_string (disk : Option (List Nat)) : Option (List Nat × LineEndings) :=
  disk.map (fun t => normalize_newlines t)

/-- Embeds `Vfs::load` from `src/lib.rs`.  `disk` is the outcome of the synchronous
`fs::read_to_string` for this path; `unwrap_or_default()` yields the empty
string and `LineEndings::Unix` when the read fails. -/
def load (vfs : Vfs) (p : List String) (disk : Option (List Nat)) :
    Vfs × Option Nat :=
  match find_root vfs p with
  | some (_, _, some file) => (vfs, some file)
  | some (root, rel, none) =>
    ({ (raw_add_file vfs root rel ((read_to_string disk).getD ([], LineEndings.Unix)).1
          ((read_to_string disk).getD ([], LineEndings.Unix)).2 false).1 with
        pending_changes :=
          (raw_add_file vfs root rel
            ((read_to_string disk).getD ([], LineEndings.Unix)).1
            ((read_to_string disk).getD ([], LineEndings.Unix)).2 false).1.pending_changes ++
          [VfsChange.AddFile root
            (raw_add_file vfs root rel
              ((read_to_string disk).getD ([], LineEndings.Unix)).1
              ((read_to_string disk).getD ([], LineEndings.Unix)).2 false).2 rel
            ((read_to_string disk).getD ([], LineEndings.Unix)).1] },
     some (raw_add_file vfs root rel
        ((read_to_string disk).getD ([], LineEndings.Unix)).1
        ((read_to_string disk).getD ([], LineEndings.Unix)).2 false).2)
  | none => (vfs, none)

/-- Embeds `Vfs::add_file_overlay` from `src/lib.rs`. -/
def add_file_overlay (vfs : Vfs) (p : List String) (text : List Nat) :
    Vfs × Option Nat :=
  match find_root vfs p with
  | none => (vfs, none)
  | some (_, _, some file) =>
    (change_file_event vfs file (normalize_newlines text).1 true, some file)
  | some (root, rel, none) =>
    add_file_event vfs root rel (normalize_newlines text).1
      (normalize_newlines text).2 true

/-- Embeds `Vfs::change_file_overlay` from `src/lib.rs`.  A path that resolves to no
root is silently ignored; a path that resolves but has no file in the table
panics (`expect`), modelled as `none`. -/
def change_file_overlay (vfs : Vfs) (p : List String) (new_text : List Nat) :
    Option Vfs :=
  match find_root vfs p with
  | none => some vfs
  | some (_, _, none) => none
  | some (_, _, some file) =>
    some (change_file_event vfs file (normalize_newlines new_text).1 true)

/-- Embeds `Vfs::remove_file_overlay` from `src/lib.rs`.  `disk` is the outcome of
the synchronous raw `fs::read_to_string` of the root-relative path joined back
to the root; note that the source does **not** normalize this text.  A path
that resolves to no root returns `none` (Rust `None`) without panicking; a
resolving path without a file panics (`expect`), modelled as the outer
`none`. -/
def remove_file_overlay (vfs : Vfs) (p : List String) (disk : Option (List Nat)) :
    Option (Vfs × Option Nat) :=
  match find_root vfs p with
  | none => some (vfs, none)
  | some (_, _, none) => none
  | some (root, rel, some file) =>
    match disk with
    | some text => some (change_file_event vfs file text false, some file)
    | none => some (remove_file_event vfs root rel file, some file)

/-- Embeds `Vfs::commit_changes` from `src/lib.rs`. -/
def commit_changes (vfs : Vfs) : List VfsChange × Vfs :=
  (vfs.pending_changes, { vfs with pending_changes := [] })

/-- Embeds `Vfs::handle_task` from `src/lib.rs`. -/
def handle_task (vfs : Vfs) (task : TaskResult) : Vfs :=
  match task with
  | TaskResult.BulkLoadRoot root files =>
    let existing := fun (pth : List String) => find_file vfs root pth
    let step := fun (acc : Vfs × List (Nat × List String × List Nat))
        (f : List String × List Nat × LineEndings) =>
      match existing f.1 with
      | some file => (acc.1, acc.2 ++ [(file, f.1, (fileD acc.1 file).text)])
      | none =>
        let fr := raw_add_file acc.1 root f.1 f.2.1 f.2.2 false
        (fr.1, acc.2 ++ [(fr.2, f.1, f.2.1)])
    let res := files.foldl step (vfs, [])
    { res.1 with pending_changes := res.1.pending_changes ++
        [VfsChange.AddRoot root res.2] }
  | TaskResult.SingleFile root path text line_endings =>
    let existing_file := find_file vfs root path
    if existing_file.map (fun f => (fileD vfs f).is_overlayed) = some true then vfs
    else
      match existing_file, text with
      | some file, none => remove_file_event vfs root path file
      | none, some t => (add_file_event vfs root path t line_endings false).1
      | some file, some t =>
        if (fileD vfs file).text ≠ t then change_file_event vfs file t false
        else vfs
      | none, none => vfs

/-- An accept-everything filter, as the `NoopFilter` of the source's tests. -/
def filterT : Filter := ⟨fun _ => true, fun _ => true⟩

/-- The identity canonicalisation: every path resolves to itself (no
symlinks), so no `canonical_path` is stored. -/
def canonId : List String → Option (List String) := fun p => some p

/-- Is a change a `ChangeFile`? -/
def isChangeFile : VfsChange → Bool
  | VfsChange.ChangeFile _ _ => true
  | _ => false

/-- The registry built from root entries `/foo`, `/bar`, `/foo` (the input of
the crate's own `vfs_deduplicates` test). -/
def rootsFooBar : Roots :=
  Roots.new canonId [⟨["foo"], filterT⟩, ⟨["bar"], filterT⟩, ⟨["foo"], filterT⟩]

/-- The registry built from roots `/a` and `/a/b` (nested), both with the
accept-everything filter: root 0 is `/a/b`, root 1 is `/a` with
`excluded_dirs = ["b"]`. -/
def rootsAB : Roots := Roots.new canonId [⟨["a"], filterT⟩, ⟨["a", "b"], filterT⟩]

/-- The registry with the single root `/a` and the accept-everything filter. -/
def rootsA : Roots := Roots.new canonId [⟨["a"], filterT⟩]

/-- An empty VFS over the single root `/a`. -/
def vfs0 : Vfs :=
  { roots := rootsA, files := [], root2files := fun _ => [], pending_changes := [] }

/-- A VFS over root `/a` holding the single disk-backed file `a/x` with text
`"a"`. -/
def vfsE : Vfs :=
  { roots := rootsA
    files := [{ root := 0, path := ["x"], is_overlayed := false, text := [97],
                line_endings := LineEndings.Unix }]
    root2files := fun r => if r = 0 then [0] else []
    pending_changes := [] }

/-- A VFS over root `/a` holding the single overlayed file `a/x` with text
`"m"`. -/
def vfsM : Vfs :=
  { roots := rootsA
    files := [{ root := 0, path := ["x"], is_overlayed := true, text := [109],
                line_endings := LineEndings.Unix }]
    root2files := fun r => if r = 0 then [0] else []
    pending_changes := [] }



theorem normalize_loop_cons_of_ne (b : Nat) (t : List Nat) (hb : b ≠ 13) :
    normalize_loop (b :: t) = b :: normalize_loop t := by
  cases t with
  | nil => rfl
  | cons c rest =>
    show (if b = 13 ∧ c = 10 then 10 :: normalize_loop rest
          else b :: normalize_loop (c :: rest)) = _
    rw [if_neg (fun h => hb h.1)]

theorem crlfSpec_nil : crlfSpec [] = [] := rfl

theorem crlfSpec_single (b : Nat) : crlfSpec [b] = [b] := by
  simp [crlfSpec, withNext]

theorem crlfSpec_cons_cons (b c : Nat) (rest : List Nat) :
    crlfSpec (b :: c :: rest) =
      if b = 13 ∧ c = 10 then crlfSpec (c :: rest) else b :: crlfSpec (c :: rest) := by
  by_cases h : b = 13 ∧ c = 10
  · simp [crlfSpec, withNext, h]
  · rw [if_neg h]
    simp [crlfSpec, withNext, List.filterMap_cons, h]

theorem crlfSpec_cons_of_ne (b : Nat) (t : List Nat) (hb : b ≠ 13) :
    crlfSpec (b :: t) = b :: crlfSpec t := by
  cases t with
  | nil => exact crlfSpec_single b
  | cons c rest => rw [crlfSpec_cons_cons, if_neg (fun h => hb h.1)]

/-- The compaction loop agrees with the declarative characterisation: it keeps
exactly the bytes that are not a `0x0D` immediately followed by `0x0A`. -/
theorem normalize_loop_eq_crlfSpec : ∀ (l : List Nat), normalize_loop l = crlfSpec l
  | [] => rfl
  | [b] => by rw [crlfSpec_single]; rfl
  | b :: c :: rest => by
    by_cases h : b = 13 ∧ c = 10
    · obtain ⟨rfl, rfl⟩ := h
      have ih := normalize_loop_eq_crlfSpec rest
      show (if (13 : Nat) = 13 ∧ (10 : Nat) = 10 then 10 :: normalize_loop rest
            else _) = _
      rw [if_pos ⟨rfl, rfl⟩, crlfSpec_cons_cons, if_pos ⟨rfl, rfl⟩,
        crlfSpec_cons_of_ne 10 rest (by decide), ih]
    · have ih := normalize_loop_eq_crlfSpec (c :: rest)
      show (if b = 13 ∧ c = 10 then 10 :: normalize_loop rest
            else b :: normalize_loop (c :: rest)) = _
      rw [if_neg h, crlfSpec_cons_cons, if_neg h, ih]

/-- The loop never lengthens the list. -/
theorem normalize_loop_length : ∀ (l : List Nat), (normalize_loop l).length ≤ l.length
  | [] => Nat.le_refl _
  | [_] => Nat.le_refl _
  | b :: c :: rest => by
    by_cases h : b = 13 ∧ c = 10
    · show (if b = 13 ∧ c = 10 then 10 :: normalize_loop rest
            else b :: normalize_loop (c :: rest)).length ≤ _
      rw [if_pos h]
      have := normalize_loop_length rest
      simp only [List.length_cons]
      omega
    · show (if b = 13 ∧ c = 10 then 10 :: normalize_loop rest
            else b :: normalize_loop (c :: rest)).length ≤ _
      rw [if_neg h]
      have := normalize_loop_length (c :: rest)
      simp only [List.length_cons] at *
      omega

/-- If no element of the prefix is `0x0D`, the loop passes it through. -/
theorem normalize_loop_append (m X : List Nat)
    (hm : ∀ x ∈ m, x ≠ 13) : normalize_loop (m ++ X) = m ++ normalize_loop X := by
  induction m with
  | nil => rfl
  | cons a m' ih =>
    rw [List.cons_append, normalize_loop_cons_of_ne a (m' ++ X)
      (hm a (List.mem_cons_self a m')),
      ih (fun x hx => hm x (List.mem_cons_of_mem a hx)), List.cons_append]

theorem utf8Cont1_eq_some {t rest : List Nat} (h : utf8Cont1 t = some rest) :
    ∃ c1, t = c1 :: rest ∧ contB c1 = true ∧ ∀ X, utf8Cont1 (c1 :: X) = some X := by
  match t with
  | [] => exact absurd h (by simp [utf8Cont1])
  | c1 :: t1 =>
    have huf : utf8Cont1 (c1 :: t1) = if contB c1 then some t1 else none := rfl
    by_cases hc : contB c1 = true
    · rw [huf, if_pos hc] at h
      have ht : t1 = rest := Option.some_inj.mp h
      subst ht
      exact ⟨c1, rfl, hc, fun X => by simp [utf8Cont1, hc]⟩
    · rw [huf, if_neg hc] at h
      exact absurd h (by simp)

theorem utf8Cont2_eq_some {lo hi : Nat} {t rest : List Nat}
    (h : utf8Cont2 lo hi t = some rest) :
    ∃ c1 c2, t = c1 :: c2 :: rest ∧ (lo ≤ c1 && c1 ≤ hi) = true ∧ contB c2 = true ∧
      ∀ X, utf8Cont2 lo hi (c1 :: c2 :: X) = some X := by
  match t with
  | [] => exact absurd h (by simp [utf8Cont2])
  | [c1] => exact absurd h (by simp [utf8Cont2])
  | c1 :: c2 :: t2 =>
    have huf : utf8Cont2 lo hi (c1 :: c2 :: t2) =
        if (lo ≤ c1 && c1 ≤ hi) && contB c2 then some t2 else none := rfl
    by_cases hc : ((lo ≤ c1 && c1 ≤ hi) && contB c2) = true
    · rw [huf, if_pos hc] at h
      have ht : t2 = rest := Option.some_inj.mp h
      subst ht
      rw [Bool.and_eq_true] at hc
      exact ⟨c1, c2, rfl, hc.1, hc.2, fun X => by simp [utf8Cont2, hc.1, hc.2]⟩
    · rw [huf, if_neg hc] at h
      exact absurd h (by simp)

theorem utf8Cont3_eq_some {lo hi : Nat} {t rest : List Nat}
    (h : utf8Cont3 lo hi t = some rest) :
    ∃ c1 c2 c3, t = c1 :: c2 :: c3 :: rest ∧ (lo ≤ c1 && c1 ≤ hi) = true ∧
      contB c2 = true ∧ contB c3 = true ∧
      ∀ X, utf8Cont3 lo hi (c1 :: c2 :: c3 :: X) = some X := by
  match t with
  | [] => exact absurd h (by simp [utf8Cont3])
  | [c1] => exact absurd h (by simp [utf8Cont3])
  | [c1, c2] => exact absurd h (by simp [utf8Cont3])
  | c1 :: c2 :: c3 :: t3 =>
    have huf : utf8Cont3 lo hi (c1 :: c2 :: c3 :: t3) =
        if ((lo ≤ c1 && c1 ≤ hi) && contB c2) && contB c3 then some t3 else none := rfl
    by_cases hc : (((lo ≤ c1 && c1 ≤ hi) && contB c2) && contB c3) = true
    · rw [huf, if_pos hc] at h
      have ht : t3 = rest := Option.some_inj.mp h
      subst ht
      rw [Bool.and_eq_true, Bool.and_eq_true] at hc
      exact ⟨c1, c2, c3, rfl, hc.1.1, hc.1.2, hc.2,
        fun X => by simp [utf8Cont3, hc.1.1, hc.1.2, hc.2]⟩
    · rw [huf, if_neg hc] at h
      exact absurd h (by simp)

theorem utf8Step_cons (b : Nat) (t : List Nat) :
    utf8Step (b :: t) =
      (if b ≤ 0x7F then some t
       else if 0xC2 ≤ b && b ≤ 0xDF then utf8Cont1 t
       else if b = 0xE0 then utf8Cont2 0xA0 0xBF t
       else if (0xE1 ≤ b && b ≤ 0xEC) || b = 0xEE || b = 0xEF then utf8Cont2 0x80 0xBF t
       else if b = 0xED then utf8Cont2 0x80 0x9F t
       else if b = 0xF0 then utf8Cont3 0x90 0xBF t
       else if 0xF1 ≤ b && b ≤ 0xF3 then utf8Cont3 0x80 0xBF t
       else if b = 0xF4 then utf8Cont3 0x80 0x8F t
       else none) := rfl

/-- A multibyte step consumes a non-empty block of continuation bytes, all of
them at least `0x80`, and the step result does not depend on what follows the
block. -/
theorem utf8Step_multibyte {b : Nat} {t rest : List Nat} (hb : ¬ b ≤ 0x7F)
    (h : utf8Step (b :: t) = some rest) :
    ∃ pre, t = pre ++ rest ∧ pre ≠ [] ∧ (∀ x ∈ pre, 0x80 ≤ x) ∧
      ∀ X, utf8Step (b :: (pre ++ X)) = some X := by
  rw [utf8Step_cons, if_neg hb] at h
  by_cases h2 : (0xC2 ≤ b && b ≤ 0xDF) = true
  · rw [if_pos h2] at h
    obtain ⟨c1, rfl, hc1, happ⟩ := utf8Cont1_eq_some h
    refine ⟨[c1], rfl, by simp, ?_, fun X => ?_⟩
    · intro x hx
      rw [List.mem_singleton] at hx
      subst hx
      simp only [contB, Bool.and_eq_true, decide_eq_true_eq] at hc1
      exact hc1.1
    · rw [utf8Step_cons, if_neg hb, if_pos h2]
      exact happ X
  · rw [if_neg h2] at h
    by_cases h3 : b = 0xE0
    · rw [if_pos h3] at h
      obtain ⟨c1, c2, rfl, hc1, hc2, happ⟩ := utf8Cont2_eq_some h
      refine ⟨[c1, c2], rfl, by simp, ?_, fun X => ?_⟩
      · intro x hx
        simp only [List.mem_cons, List.not_mem_nil, or_false] at hx
        simp only [Bool.and_eq_true, decide_eq_true_eq] at hc1
        simp only [contB, Bool.and_eq_true, decide_eq_true_eq] at hc2
        rcases hx with rfl | rfl
        · omega
        · exact hc2.1
      · rw [utf8Step_cons, if_neg hb, if_neg h2, if_pos h3]
        exact happ X
    · rw [if_neg h3] at h
      by_cases h4 : ((0xE1 ≤ b && b ≤ 0xEC) || b = 0xEE || b = 0xEF) = true
      · rw [if_pos h4] at h
        obtain ⟨c1, c2, rfl, hc1, hc2, happ⟩ := utf8Cont2_eq_some h
        refine ⟨[c1, c2], rfl, by simp, ?_, fun X => ?_⟩
        · intro x hx
          simp only [List.mem_cons, List.not_mem_nil, or_false] at hx
          simp only [Bool.and_eq_true, decide_eq_true_eq] at hc1
          simp only [contB, Bool.and_eq_true, decide_eq_true_eq] at hc2
          rcases hx with rfl | rfl
          · omega
          · exact hc2.1
        · rw [utf8Step_cons, if_neg hb, if_neg h2, if_neg h3, if_pos h4]
          exact happ X
      · rw [if_neg h4] at h
        by_cases h5 : b = 0xED
        · rw [if_pos h5] at h
          obtain ⟨c1, c2, rfl, hc1, hc2, happ⟩ := utf8Cont2_eq_some h
          refine ⟨[c1, c2], rfl, by simp, ?_, fun X => ?_⟩
          · intro x hx
            simp only [List.mem_cons, List.not_mem_nil, or_false] at hx
            simp only [Bool.and_eq_true, decide_eq_true_eq] at hc1
            simp only [contB, Bool.and_eq_true, decide_eq_true_eq] at hc2
            rcases hx with rfl | rfl
            · omega
            · exact hc2.1
          · rw [utf8Step_cons, if_neg hb, if_neg h2, if_neg h3, if_neg h4, if_pos h5]
            exact happ X
        · rw [if_neg h5] at h
          by_cases h6 : b = 0xF0
          · rw [if_pos h6] at h
            obtain ⟨c1, c2, c3, rfl, hc1, hc2, hc3, happ⟩ := utf8Cont3_eq_some h
            refine ⟨[c1, c2, c3], rfl, by simp, ?_, fun X => ?_⟩
            · intro x hx
              simp only [List.mem_cons, List.not_mem_nil, or_false] at hx
              simp only [Bool.and_eq_true, decide_eq_true_eq] at hc1
              simp only [contB, Bool.and_eq_true, decide_eq_true_eq] at hc2 hc3
              rcases hx with rfl | rfl | rfl
              · omega
              · exact hc2.1
              · exact hc3.1
            · rw [utf8Step_cons, if_neg hb, if_neg h2, if_neg h3, if_neg h4, if_neg h5,
                if_pos h6]
              exact happ X
          · rw [if_neg h6] at h
            by_cases h7 : (0xF1 ≤ b && b ≤ 0xF3) = true
            · rw [if_pos h7] at h
              obtain ⟨c1, c2, c3, rfl, hc1, hc2, hc3, happ⟩ := utf8Cont3_eq_some h
              refine ⟨[c1, c2, c3], rfl, by simp, ?_, fun X => ?_⟩
              · intro x hx
                simp only [List.mem_cons, List.not_mem_nil, or_false] at hx
                simp only [Bool.and_eq_true, decide_eq_true_eq] at hc1
                simp only [contB, Bool.and_eq_true, decide_eq_true_eq] at hc2 hc3
                rcases hx with rfl | rfl | rfl
                · omega
                · exact hc2.1
                · exact hc3.1
              · rw [utf8Step_cons, if_neg hb, if_neg h2, if_neg h3, if_neg h4, if_neg h5,
                  if_neg h6, if_pos h7]
                exact happ X
            · rw [if_neg h7] at h
              by_cases h8 : b = 0xF4
              · rw [if_pos h8] at h
                obtain ⟨c1, c2, c3, rfl, hc1, hc2, hc3, happ⟩ := utf8Cont3_eq_some h
                refine ⟨[c1, c2, c3], rfl, by simp, ?_, fun X => ?_⟩
                · intro x hx
                  simp only [List.mem_cons, List.not_mem_nil, or_false] at hx
                  simp only [Bool.and_eq_true, decide_eq_true_eq] at hc1
                  simp only [contB, Bool.and_eq_true, decide_eq_true_eq] at hc2 hc3
                  rcases hx with rfl | rfl | rfl
                  · omega
                  · exact hc2.1
                  · exact hc3.1
                · rw [utf8Step_cons, if_neg hb, if_neg h2, if_neg h3, if_neg h4, if_neg h5,
                    if_neg h6, if_neg h7, if_pos h8]
                  exact happ X
              · rw [if_neg h8] at h
                exact absurd h (by simp)

theorem utf8Step_length {l rest : List Nat} (h : utf8Step l = some rest) :
    rest.length < l.length := by
  match l with
  | [] => exact absurd h (by simp [utf8Step])
  | b :: t =>
    by_cases hb : b ≤ 0x7F
    · rw [utf8Step_cons, if_pos hb] at h
      rw [← Option.some_inj.mp h]
      simp
    · obtain ⟨pre, rfl, hne, -, -⟩ := utf8Step_multibyte hb h
      have hpos : 0 < pre.length := List.length_pos.mpr hne
      simp only [List.length_cons, List.length_append]
      omega

theorem utf8Go_nil (f : Nat) : utf8Go f [] = true := by
  cases f <;> rfl

theorem utf8Go_succ_cons (f b : Nat) (t : List Nat) :
    utf8Go (f + 1) (b :: t) =
      (match utf8Step (b :: t) with
       | some rest => utf8Go f rest
       | none => false) := rfl

/-- The value of `utf8Go` does not depend on the fuel once the fuel dominates the length. -/
theorem utf8Go_fuel : ∀ (n f1 f2 : Nat) (l : List Nat),
    l.length ≤ n → l.length ≤ f1 → l.length ≤ f2 → utf8Go f1 l = utf8Go f2 l := by
  intro n
  induction n with
  | zero =>
    intro f1 f2 l hn h1 h2
    have h0 : l = [] := List.length_eq_zero.mp (Nat.le_zero.mp hn)
    subst h0
    rw [utf8Go_nil, utf8Go_nil]
  | succ n ih =>
    intro f1 f2 l hn h1 h2
    match l with
    | [] => rw [utf8Go_nil, utf8Go_nil]
    | b :: t =>
      simp only [List.length_cons] at hn h1 h2
      match f1, f2 with
      | f1 + 1, f2 + 1 =>
        rw [utf8Go_succ_cons, utf8Go_succ_cons]
        cases hs : utf8Step (b :: t) with
        | none => rfl
        | some rest =>
          have hlen := utf8Step_length hs
          simp only [List.length_cons] at hlen
          exact ih f1 f2 rest (by omega) (by omega) (by omega)

/-- Removing `0x0D` bytes that precede `0x0A` preserves strict UTF-8 validity:
only single-byte (ASCII) sequences are removed, and multibyte sequences are
copied verbatim by the loop. -/
theorem utf8Valid_normalize_loop :
    ∀ (n : Nat) (l : List Nat), l.length ≤ n → utf8Valid l = true →
      utf8Valid (normalize_loop l) = true := by
  intro n
  induction n with
  | zero =>
    intro l hl h
    have h0 : l = [] := List.length_eq_zero.mp (Nat.le_zero.mp hl)
    subst h0
    exact h
  | succ n ih =>
    intro l hl h
    match l with
    | [] => exact h
    | b :: t =>
      simp only [List.length_cons] at hl
      simp only [utf8Valid, List.length_cons] at h
      rw [utf8Go_succ_cons] at h
      cases hs : utf8Step (b :: t) with
      | none => rw [hs] at h; exact absurd h (by simp)
      | some rest =>
        rw [hs] at h
        by_cases hb : b ≤ 0x7F
        · have hrest : rest = t := by
            rw [utf8Step_cons, if_pos hb] at hs
            exact (Option.some_inj.mp hs).symm
          subst hrest
          by_cases hcr : ∃ t', b = 13 ∧ rest = 10 :: t'
          · obtain ⟨t', rfl, rfl⟩ := hcr
            show utf8Valid (normalize_loop (13 :: 10 :: t')) = true
            have hnl : normalize_loop (13 :: 10 :: t') = 10 :: normalize_loop t' := by
              show (if (13 : Nat) = 13 ∧ (10 : Nat) = 10 then 10 :: normalize_loop t'
                    else _) = _
              rw [if_pos ⟨rfl, rfl⟩]
            have ht' : utf8Valid t' = true := by
              simp only [List.length_cons] at h
              rw [utf8Go_succ_cons, utf8Step_cons, if_pos (by norm_num)] at h
              exact h
            rw [hnl]
            simp only [utf8Valid, List.length_cons]
            rw [utf8Go_succ_cons, utf8Step_cons, if_pos (by norm_num)]
            have := ih t' (by simp only [List.length_cons] at hl; omega) ht'
            simp only [utf8Valid] at this
            exact this
          · have hnl : normalize_loop (b :: rest) = b :: normalize_loop rest := by
              match rest with
              | [] => rfl
              | c :: t'' =>
                have hne : ¬(b = 13 ∧ c = 10) := fun hc => hcr ⟨t'', hc.1, by rw [hc.2]⟩
                show (if b = 13 ∧ c = 10 then 10 :: normalize_loop t''
                      else b :: normalize_loop (c :: t'')) = _
                rw [if_neg hne]
            rw [hnl]
            simp only [utf8Valid, List.length_cons]
            rw [utf8Go_succ_cons, utf8Step_cons, if_pos hb]
            have hrec := ih rest (by omega) h
            simp only [utf8Valid] at hrec
            exact hrec
        · obtain ⟨pre, rfl, hne, hpre, happ⟩ := utf8Step_multibyte hb hs
          have hb13 : ∀ x ∈ b :: pre, x ≠ 13 := by
            intro x hx
            rcases List.mem_cons.mp hx with rfl | hx
            · omega
            · have := hpre x hx
              omega
          have hnl : normalize_loop (b :: (pre ++ rest)) =
              b :: (pre ++ normalize_loop rest) := by
            have hstep := normalize_loop_append (b :: pre) rest hb13
            simpa using hstep
          have hpos : 0 < pre.length := List.length_pos.mpr hne
          have hrest_val : utf8Valid rest = true := by
            simp only [utf8Valid]
            rw [utf8Go_fuel rest.length rest.length (pre ++ rest).length rest
              (Nat.le_refl _) (Nat.le_refl _)
              (by simp only [List.length_append]; omega)]
            exact h
          have hrec := ih rest
            (by simp only [List.length_append] at hl; omega) hrest_val
          simp only [utf8Valid] at hrec
          rw [hnl]
          simp only [utf8Valid, List.length_cons]
          rw [utf8Go_succ_cons, happ (normalize_loop rest)]
          show utf8Go (pre ++ normalize_loop rest).length (normalize_loop rest) = true
          rw [utf8Go_fuel (pre ++ normalize_loop rest).length
            (pre ++ normalize_loop rest).length (normalize_loop rest).length
            (normalize_loop rest)
            (by simp only [List.length_append]; omega)
            (by simp only [List.length_append]; omega) (Nat.le_refl _)]
          exact hrec

theorem getD_append_of_lt (l l' : List α) (i : Nat) (d : α) (h : i < l.length) :
    (l ++ l').getD i d = l.getD i d := by
  induction l generalizing i with
  | nil => simp at h
  | cons a t ih =>
    cases i with
    | zero => rfl
    | succ i =>
      simp only [List.cons_append, List.getD_cons_succ]
      exact ih i (by simp only [List.length_cons] at h; omega)

theorem getD_append_length (l : List α) (a d : α) :
    (l ++ [a]).getD l.length d = a := by
  induction l with
  | nil => rfl
  | cons b t ih =>
    simp only [List.cons_append, List.length_cons, List.getD_cons_succ]
    exact ih

theorem getD_of_le (l : List α) (i : Nat) (d : α) (h : l.length ≤ i) :
    l.getD i d = d := by
  induction l generalizing i with
  | nil => cases i <;> rfl
  | cons a t ih =>
    cases i with
    | zero => simp at h
    | succ i =>
      simp only [List.getD_cons_succ]
      exact ih i (by simp only [List.length_cons] at h; omega)

theorem getD_set_self (l : List α) (i : Nat) (a d : α) (h : i < l.length) :
    (l.set i a).getD i d = a := by
  induction l generalizing i with
  | nil => simp at h
  | cons b t ih =>
    cases i with
    | zero => rfl
    | succ i =>
      show (b :: t.set i a).getD (i + 1) d = a
      simp only [List.getD_cons_succ]
      exact ih i (by simp only [List.length_cons] at h; omega)

theorem fileD_raw_add_of_lt (vfs : Vfs) (root : Nat) (path : List String)
    (text : List Nat) (le : LineEndings) (ov : Bool) (f : Nat)
    (hf : f < vfs.files.length) :
    fileD (raw_add_file vfs root path text le ov).1 f = fileD vfs f := by
  simp only [fileD, raw_add_file]
  exact getD_append_of_lt _ _ _ _ hf

theorem fileD_raw_add_self (vfs : Vfs) (root : Nat) (path : List String)
    (text : List Nat) (le : LineEndings) (ov : Bool) :
    fileD (raw_add_file vfs root path text le ov).1 vfs.files.length =
      { root := root, path := path, is_overlayed := ov, text := text,
        line_endings := le } := by
  simp only [fileD, raw_add_file]
  exact getD_append_length _ _ _

theorem fileD_raw_add_of_gt (vfs : Vfs) (root : Nat) (path : List String)
    (text : List Nat) (le : LineEndings) (ov : Bool) (f : Nat)
    (hf : vfs.files.length < f) :
    fileD (raw_add_file vfs root path text le ov).1 f = default := by
  simp only [fileD, raw_add_file]
  refine getD_of_le _ _ _ ?_
  simp only [List.length_append, List.length_cons, List.length_nil]
  omega

theorem find?_concat_self {p : Nat → Bool} (n : Nat) :
    ∀ (L : List Nat), (∀ x ∈ L, p x = true → x = n) → p n = true →
      (L ++ [n]).find? p = some n := by
  intro L
  induction L with
  | nil =>
    intro _ hp
    simp only [List.nil_append]
    rw [List.find?_cons_of_pos _ hp]
  | cons a L ih =>
    intro hall hp
    by_cases ha : p a = true
    · have haa : a = n := hall a (List.mem_cons_self a L) ha
      subst haa
      rw [List.cons_append, List.find?_cons_of_pos _ hp]
    · rw [List.cons_append, List.find?_cons_of_neg _ ha]
      exact ih (fun x hx hpx => hall x (List.mem_cons_of_mem a hx) hpx) hp

/-- After `raw_add_file` at `(root, rel)`, a lookup of `(root, rel)` finds the
freshly added file (given that it found nothing before). -/
theorem find_file_raw_add (vfs : Vfs) (root : Nat) (rel : List String)
    (text : List Nat) (le : LineEndings) (ov : Bool)
    (h : find_file vfs root rel = none) :
    find_file (raw_add_file vfs root rel text le ov).1 root rel =
      some vfs.files.length := by
  have hall : ∀ x ∈ vfs.root2files root, ((fileD vfs x).path == rel) = false := by
    intro x hx
    have hfx := List.find?_eq_none.mp h x hx
    simpa using hfx
  have hr2 : (raw_add_file vfs root rel text le ov).1.root2files root =
      vfs.root2files root ++ [vfs.files.length] := by
    simp [raw_add_file]
  have hptw : ∀ x ∈ vfs.root2files root,
      ((fileD (raw_add_file vfs root rel text le ov).1 x).path == rel) = true →
        x = vfs.files.length := by
    intro x hx hpx
    by_contra hne
    rcases Nat.lt_or_ge x vfs.files.length with hlt | hge
    · rw [fileD_raw_add_of_lt vfs root rel text le ov x hlt, hall x hx] at hpx
      exact absurd hpx (by simp)
    · have hgt : vfs.files.length < x := lt_of_le_of_ne hge (Ne.symm hne)
      rw [fileD_raw_add_of_gt vfs root rel text le ov x hgt] at hpx
      have hdx : fileD vfs x = default := by
        simp only [fileD]
        exact getD_of_le _ _ _ (by omega)
      rw [← hdx, hall x hx] at hpx
      exact absurd hpx (by simp)
  show ((raw_add_file vfs root rel text le ov).1.root2files root).find?
      (fun f => (fileD (raw_add_file vfs root rel text le ov).1 f).path == rel) =
      some vfs.files.length
  rw [hr2]
  exact find?_concat_self vfs.files.length (vfs.root2files root) hptw
    (by rw [fileD_raw_add_self]; simp)

/-- C1: a `SingleFile` task whose `(root, relpath)` resolves to an existing
file whose `is_overlayed` flag is `true` is discarded by `handle_task`: the
state (file text, line endings, overlay flag, pending change log — the entire
`Vfs`) is returned unchanged.  Within `handle_task`, only
`change_file_overlay` / `remove_file_overlay` (which are separate operations)
can touch such a file. -/
theorem handle_task_overlayed_single_file_noop (vfs : Vfs) (root : Nat)
    (path : List String) (text : Option (List Nat)) (le : LineEndings) (f : Nat)
    (hf : find_file vfs root path = some f)
    (hov : (fileD vfs f).is_overlayed = true) :
    handle_task vfs (TaskResult.SingleFile root path text le) = vfs := by
  simp [handle_task, hf, hov]

/-- Witness for C1 at a concrete state: `vfsM` holds the overlayed file
`a/x`, and a disk-side `SingleFile` update for it changes nothing. -/
theorem handle_task_overlayed_single_file_noop_witness :
    find_file vfsM 0 ["x"] = some 0 ∧ (fileD vfsM 0).is_overlayed = true ∧
      handle_task vfsM (TaskResult.SingleFile 0 ["x"] (some [98]) LineEndings.Unix)
        = vfsM :=
  ⟨by decide, by decide,
   handle_task_overlayed_single_file_noop vfsM 0 ["x"] (some [98])
     LineEndings.Unix 0 (by decide) (by decide)⟩

/-- C2: for a `SingleFile` task that does not resolve to an overlayed file,
`handle_task` follows the four-way table: (no file, `none`) is a no-op;
(no file, `some t`) inserts a disk-backed (`is_overlayed = false`) file and
appends `AddFile`; (file, `none`) tombstones it (text and path cleared, id
dropped from the root index) and appends `RemoveFile`; (file, `some t`)
appends `ChangeFile` exactly when `t` differs from the current text and is a
no-op when the texts are equal. -/
theorem handle_task_single_file_table (vfs : Vfs) (root : Nat)
    (path : List String) (le : LineEndings)
    (hnov : (find_file vfs root path).map (fun f => (fileD vfs f).is_overlayed)
      ≠ some true) :
    (find_file vfs root path = none →
      handle_task vfs (TaskResult.SingleFile root path none le) = vfs) ∧
    (∀ t, find_file vfs root path = none →
      (handle_task vfs (TaskResult.SingleFile root path (some t) le)).files =
          vfs.files ++ [⟨root, path, false, t, le⟩] ∧
      (handle_task vfs (TaskResult.SingleFile root path (some t) le)).pending_changes
        = vfs.pending_changes ++ [VfsChange.AddFile root vfs.files.length path t]) ∧
    (∀ f, find_file vfs root path = some f →
      (handle_task vfs (TaskResult.SingleFile root path none le)).files =
          vfs.files.set f { fileD vfs f with text := [], path := [] } ∧
      (handle_task vfs (TaskResult.SingleFile root path none le)).pending_changes =
          vfs.pending_changes ++ [VfsChange.RemoveFile root f path] ∧
      f ∉ (handle_task vfs (TaskResult.SingleFile root path none le)).root2files
            (fileD vfs f).root) ∧
    (∀ f t, find_file vfs root path = some f → (fileD vfs f).text ≠ t →
      (handle_task vfs (TaskResult.SingleFile root path (some t) le)).files =
          vfs.files.set f { fileD vfs f with text := t, is_overlayed := false } ∧
      (handle_task vfs (TaskResult.SingleFile root path (some t) le)).pending_changes
        = vfs.pending_changes ++ [VfsChange.ChangeFile f t]) ∧
    (∀ f t, find_file vfs root path = some f → (fileD vfs f).text = t →
      handle_task vfs (TaskResult.SingleFile root path (some t) le) = vfs) := by
  refine ⟨?_, ?_, ?_, ?_, ?_⟩
  · intro h0
    simp [handle_task, h0]
  · intro t h0
    constructor
    · simp [handle_task, h0, add_file_event, raw_add_file]
    · simp [handle_task, h0, add_file_event, raw_add_file]
  · intro f hf
    have hovf : (fileD vfs f).is_overlayed = false := by
      rw [hf] at hnov
      simp only [Option.map_some', ne_eq, Option.some.injEq] at hnov
      simpa using hnov
    refine ⟨?_, ?_, ?_⟩
    · simp [handle_task, hf, hovf, remove_file_event, raw_remove_file]
    · simp [handle_task, hf, hovf, remove_file_event, raw_remove_file]
    · simp [handle_task, hf, hovf, remove_file_event, raw_remove_file,
        List.mem_filter]
  · intro f t hf ht
    have hovf : (fileD vfs f).is_overlayed = false := by
      rw [hf] at hnov
      simp only [Option.map_some', ne_eq, Option.some.injEq] at hnov
      simpa using hnov
    constructor
    · simp [handle_task, hf, hovf, ht, change_file_event, raw_change_file]
    · simp [handle_task, hf, hovf, ht, change_file_event, raw_change_file]
  · intro f t hf ht
    have hovf : (fileD vfs f).is_overlayed = false := by
      rw [hf] at hnov
      simp only [Option.map_some', ne_eq, Option.some.injEq] at hnov
      simpa using hnov
    simp [handle_task, hf, hovf, ht]

/-- Witness for C2 at concrete states: `vfsE` holds the non-overlayed file
`a/x` with text `"a"`; a spurious identical update is a no-op, and an update
with different text appends exactly one `ChangeFile`. -/
theorem handle_task_single_file_table_witness :
    handle_task vfsE (TaskResult.SingleFile 0 ["x"] (some [97]) LineEndings.Unix)
        = vfsE ∧
    (handle_task vfsE
        (TaskResult.SingleFile 0 ["x"] (some [98]) LineEndings.Unix)).pending_changes
      = [VfsChange.ChangeFile 0 [98]] :=
  ⟨(handle_task_single_file_table vfsE 0 ["x"] LineEndings.Unix (by decide)).2.2.2.2
      0 [97] (by decide) (by decide),
   ((handle_task_single_file_table vfsE 0 ["x"] LineEndings.Unix
      (by decide)).2.2.2.1 0 [98] (by decide) (by decide)).2.trans (by decide)⟩

/-- C4 counterexample: the input `"a\rb"` (isolated carriage return) is
reported as `Dos`, not `Unix`, because the flavor test checks for any `0x0D`
byte rather than for a `0x0D 0x0A` pair. -/
theorem normalize_isolated_cr_not_unix :
    normalize_newlines [97, 13, 98] ≠ ([97, 13, 98], LineEndings.Unix) := by decide

/-- C4 amended: `normalize("a\r\nb") = ("a\nb", Dos)` and
`normalize("a\nb") = ("a\nb", Unix)` as claimed, but
`normalize("a\rb") = ("a\rb", Dos)`: an isolated carriage return leaves the
text unchanged yet the reported flavor is `Dos`. -/
theorem normalize_newlines_examples :
    normalize_newlines [97, 13, 10, 98] = ([97, 10, 98], LineEndings.Dos) ∧
    normalize_newlines [97, 10, 98] = ([97, 10, 98], LineEndings.Unix) ∧
    normalize_newlines [97, 13, 98] = ([97, 13, 98], LineEndings.Dos) := by decide

/-- C5 counterexample: on input `"\r\r\n"` the output is `"\r\n"`, which does
contain the substring `0x0D 0x0A`: the single pass removes only the second
`0x0D` (the one directly followed by `0x0A` in the input), and the surviving
first `0x0D` becomes adjacent to the `0x0A`. -/
theorem normalize_output_contains_crlf :
    normalize_newlines [13, 13, 10] = ([13, 10], LineEndings.Dos) ∧
    hasCRLF (normalize_newlines [13, 13, 10]).1 = true := by decide

/-- C5 amended: `normalize_newlines` returns `Unix` with the string unchanged
iff the input has no `0x0D` byte; otherwise it returns `Dos` and removes
exactly the `0x0D` bytes immediately followed by `0x0A` (as `crlfSpec`:
isolated `0x0D` bytes and all other bytes are kept in order), and strict
UTF-8 validity is preserved.  (The original claim's final conjunct — that the
output never contains `0x0D 0x0A` — is dropped; see the counterexample.) -/
theorem normalize_newlines_spec (src : List Nat) :
    (normalize_newlines src = (src, LineEndings.Unix) ↔ 13 ∉ src) ∧
    (13 ∈ src → normalize_newlines src = (crlfSpec src, LineEndings.Dos)) ∧
    (utf8Valid src = true → utf8Valid (normalize_newlines src).1 = true) := by
  refine ⟨⟨?_, ?_⟩, ?_, ?_⟩
  · intro h hm
    have hsnd := congrArg Prod.snd h
    simp only [normalize_newlines, if_pos hm] at hsnd
    exact absurd hsnd (by decide)
  · intro hm
    simp [normalize_newlines, hm]
  · intro hm
    simp [normalize_newlines, hm, normalize_loop_eq_crlfSpec]
  · intro hu
    by_cases hm : 13 ∈ src
    · simp only [normalize_newlines, if_pos hm]
      exact utf8Valid_normalize_loop src.length src (Nat.le_refl _) hu
    · simpa [normalize_newlines, hm] using hu

/-- Witness for C5 at concrete inputs, one per hypothesis-guarded part. -/
theorem normalize_newlines_spec_witness :
    normalize_newlines [97, 10] = ([97, 10], LineEndings.Unix) ∧
    normalize_newlines [13, 13, 10] = (crlfSpec [13, 13, 10], LineEndings.Dos) ∧
    utf8Valid (normalize_newlines [97, 13, 10]).1 = true :=
  ⟨(normalize_newlines_spec [97, 10]).1.mpr (by decide),
   (normalize_newlines_spec [13, 13, 10]).2.1 (by decide),
   (normalize_newlines_spec [97, 13, 10]).2.2 (by decide)⟩

/-- C6 (code bug): on input paths `/foo`, `/bar`, `/foo` the registry keeps
**three** roots, with `/foo` appearing twice.  The stable sort by descending
`as_os_str().len()` leaves the equal-length entries in input order, so the two
`/foo` entries are not adjacent, and `Vec::dedup` removes only adjacent
duplicates.  The crate's own `vfs_deduplicates` test asserts 2 roots for this
very input. -/
theorem roots_new_nonadjacent_duplicate :
    rootsFooBar.len = 3 ∧
    (rootD rootsFooBar 0).entry.path = ["foo"] ∧
    (rootD rootsFooBar 1).entry.path = ["bar"] ∧
    (rootD rootsFooBar 2).entry.path = ["foo"] := by decide

/-- C7 counterexample: in `rootsAB` (roots `/a/b` and `/a`, accept-everything
filters), root `/a` has `excluded_dirs = ["b"]`, yet `is_included` accepts the
relative path `b/x` — the exclusion check is exact equality, not a
starts-with test — and `Roots::contains` resolves `/a/b/x` under root `/a`. -/
theorem contains_under_excluded_dir_accepted :
    (rootD rootsAB 1).excluded_dirs = [["b"]] ∧
    (rootD rootsAB 1).is_included ["b", "x"] FileType.File = true ∧
    Roots.contains rootsAB 1 ["a", "b", "x"] FileType.File = some ["b", "x"] := by
  decide

/-- C7 amended: `is_included` returns `false` (for either expected type) when
the relative path is **exactly** an `excluded_dirs` entry, and `contains` then
rejects the path (when no separate canonical path is stored); paths strictly
beneath an excluded directory are not rejected by the exclusion check and fall
through to the filter. -/
theorem excluded_dir_exact_match (r : Roots) (i : Nat) (p rel : List String)
    (expected : FileType) (hex : rel ∈ (rootD r i).excluded_dirs) :
    (rootD r i).is_included rel expected = false ∧
    ((rootD r i).canonical_path = none →
      rel_path (rootD r i).entry.path p = some rel → rel ≠ [] →
      Roots.contains r i p expected = none) := by
  constructor
  · simp [RootData.is_included, hex]
  · intro hc hrp hne
    simp only [Roots.contains, hc, Option.toList_none, List.findSome?]
    simp [to_relative_path, hrp, hne, RootData.is_included, hex]

/-- Witness for C7: the excluded directory `b` itself, under root `/a` of
`rootsAB`. -/
theorem excluded_dir_exact_match_witness :
    (rootD rootsAB 1).is_included ["b"] FileType.File = false ∧
    Roots.contains rootsAB 1 ["a", "b"] FileType.File = none :=
  ⟨(excluded_dir_exact_match rootsAB 1 ["a", "b"] ["b"] FileType.File (by decide)).1,
   (excluded_dir_exact_match rootsAB 1 ["a", "b"] ["b"] FileType.File (by decide)).2
     (by decide) (by decide) (by decide)⟩

/-- C9 counterexample: on a path outside every root (here `/z`, with the
single root `/a`), `change_file_overlay` does **not** fail: it silently
returns with the state unchanged.  Only an in-root path missing from the file
table panics. -/
theorem change_file_overlay_outside_roots_silent :
    find_root vfs0 ["z"] = none ∧ change_file_overlay vfs0 ["z"] [97] = some vfs0 :=
  ⟨by decide, rfl⟩

/-- C9 amended: `change_file_overlay` panics (`expect`, modelled as `none`)
exactly when the path resolves to a root and passes its filter but the file is
not in the table; a path that resolves to no root (outside every root, or
rejected by the filter) is silently ignored, leaving the state unchanged. -/
theorem change_file_overlay_errors (vfs : Vfs) (p : List String) (t : List Nat) :
    (find_root vfs p = none → change_file_overlay vfs p t = some vfs) ∧
    (∀ root rel, find_root vfs p = some (root, rel, none) →
      change_file_overlay vfs p t = none) := by
  constructor
  · intro h
    simp [change_file_overlay, h]
  · intro root rel h
    simp [change_file_overlay, h]

/-- Witness for C9: both branches at concrete states. -/
theorem change_file_overlay_errors_witness :
    change_file_overlay vfs0 ["z"] [97] = some vfs0 ∧
    change_file_overlay vfs0 ["a", "x"] [97] = none :=
  ⟨(change_file_overlay_errors vfs0 ["z"] [97]).1 (by decide),
   (change_file_overlay_errors vfs0 ["a", "x"] [97]).2 0 ["x"] (by decide)⟩

/-- C10: when `load` is called on a path that resolves to `(root, rel)` with
no existing file and the disk read fails, it does not return `None`: it
inserts a disk-backed file with empty text and `Unix` line endings, appends an
`AddFile` carrying the empty text, and returns the new id. -/
theorem load_unreadable_inserts_empty (vfs : Vfs) (p : List String)
    (root : Nat) (rel : List String)
    (h : find_root vfs p = some (root, rel, none)) :
    (load vfs p none).2 = some vfs.files.length ∧
    (load vfs p none).1.files = vfs.files ++
      [{ root := root, path := rel, is_overlayed := false, text := [],
         line_endings := LineEndings.Unix }] ∧
    (load vfs p none).1.pending_changes =
      vfs.pending_changes ++ [VfsChange.AddFile root vfs.files.length rel []] := by
  refine ⟨?_, ?_, ?_⟩ <;> simp [load, h, read_to_string, raw_add_file]

/-- Witness for C10: loading the unknown, unreadable path `a/x` in the empty
VFS. -/
theorem load_unreadable_inserts_empty_witness :
    (load vfs0 ["a", "x"] none).2 = some 0 ∧
    (load vfs0 ["a", "x"] none).1.files =
      [{ root := 0, path := ["x"], is_overlayed := false, text := [],
         line_endings := LineEndings.Unix }] ∧
    (load vfs0 ["a", "x"] none).1.pending_changes =
      [VfsChange.AddFile 0 0 ["x"] []] := by
  obtain ⟨h1, h2, h3⟩ :=
    load_unreadable_inserts_empty vfs0 ["a", "x"] 0 ["x"] (by decide)
  exact ⟨h1.trans (by decide), h2.trans (by decide), h3.trans (by decide)⟩

/-- C3 counterexample: removing the overlay of `a/x` in `vfsM` while the disk
holds `"a\r\nb"` stores the raw disk text — carriage return and all — in the
file table and in the emitted `ChangeFile`: the synchronous re-read of
`remove_file_overlay` bypasses newline normalization. -/
theorem remove_file_overlay_stores_crlf :
    (remove_file_overlay vfsM ["a", "x"] (some [97, 13, 10, 98])).map
        (fun vr => ((fileD vr.1 0).text, vr.1.pending_changes)) =
      some ([97, 13, 10, 98], [VfsChange.ChangeFile 0 [97, 13, 10, 98]]) ∧
    hasCRLF [97, 13, 10, 98] = true := by decide

/-- C3 amended: CRLF normalization is applied to the text stored (and the
change emitted) by `add_file_overlay`, `change_file_overlay` and `load`, but
**not** by `remove_file_overlay`: its synchronous disk re-read stores the raw
disk text unchanged, so a stored text may contain `"\r\n"`. -/
theorem ingestion_normalization_paths (vfs : Vfs) (p : List String)
    (t raw : List Nat) :
    (∀ root rel f, find_root vfs p = some (root, rel, some f) →
        f < vfs.files.length →
        (fileD (add_file_overlay vfs p t).1 f).text = (normalize_newlines t).1 ∧
        (add_file_overlay vfs p t).1.pending_changes = vfs.pending_changes ++
          [VfsChange.ChangeFile f (normalize_newlines t).1]) ∧
    (∀ root rel, find_root vfs p = some (root, rel, none) →
        (fileD (add_file_overlay vfs p t).1 vfs.files.length).text =
          (normalize_newlines t).1) ∧
    (∀ root rel f, find_root vfs p = some (root, rel, some f) →
        f < vfs.files.length →
        (change_file_overlay vfs p t).map (fun v => (fileD v f).text) =
          some (normalize_newlines t).1) ∧
    (∀ root rel, find_root vfs p = some (root, rel, none) →
        (fileD (load vfs p (some raw)).1 vfs.files.length).text =
          (normalize_newlines raw).1) ∧
    (∀ root rel f, find_root vfs p = some (root, rel, some f) →
        f < vfs.files.length →
        (remove_file_overlay vfs p (some raw)).map (fun vr => (fileD vr.1 f).text)
          = some raw) := by
  refine ⟨?_, ?_, ?_, ?_, ?_⟩
  · intro root rel f h hf
    constructor
    · simp only [add_file_overlay, h, change_file_event, raw_change_file, fileD]
      rw [getD_set_self _ _ _ _ hf]
    · simp [add_file_overlay, h, change_file_event, raw_change_file]
  · intro root rel h
    simp only [add_file_overlay, h, add_file_event]
    have := fileD_raw_add_self vfs root rel (normalize_newlines t).1
      (normalize_newlines t).2 true
    simpa [fileD] using congrArg VfsFileData.text this
  · intro root rel f h hf
    simp only [change_file_overlay, h, Option.map_some', Option.some.injEq,
      change_file_event, raw_change_file, fileD]
    rw [getD_set_self _ _ _ _ hf]
  · intro root rel h
    simp only [load, h, read_to_string, Option.map_some', Option.getD_some]
    have := fileD_raw_add_self vfs root rel (normalize_newlines raw).1
      (normalize_newlines raw).2 false
    simpa [fileD] using congrArg VfsFileData.text this
  · intro root rel f h hf
    simp only [remove_file_overlay, h, Option.map_some', Option.some.injEq,
      change_file_event, raw_change_file, fileD]
    rw [getD_set_self _ _ _ _ hf]

/-- Witness for C3 at concrete states: the overlay paths normalize
(`"a\r\nb"` is stored as `"a\nb"`), the `remove_file_overlay` re-read does
not. -/
theorem ingestion_normalization_paths_witness :
    (fileD (add_file_overlay vfsE ["a", "x"] [97, 13, 10, 98]).1 0).text
        = [97, 10, 98] ∧
    (remove_file_overlay vfsM ["a", "x"] (some [99, 13, 10, 100])).map
        (fun vr => (fileD vr.1 0).text) = some [99, 13, 10, 100] := by
  obtain ⟨h1, -, -, -, h5⟩ :=
    ingestion_normalization_paths vfsE ["a", "x"] [97, 13, 10, 98] [99, 13, 10, 100]
  obtain ⟨-, -, -, -, h5'⟩ :=
    ingestion_normalization_paths vfsM ["a", "x"] [97, 13, 10, 98] [99, 13, 10, 100]
  exact ⟨((h1 0 ["x"] 0 (by decide) (by decide)).1).trans (by decide),
    h5' 0 ["x"] 0 (by decide) (by decide)⟩

/-- C8 counterexample: when the path already resolves to an existing file
(`a/x` in `vfsE`), `add_file_overlay(p, t)` followed by
`change_file_overlay(p, t)` appends **two** `ChangeFile`s, not one. -/
theorem overlay_add_change_existing_two_changefiles :
    find_root vfsE ["a", "x"] = some (0, ["x"], some 0) ∧
    (change_file_overlay (add_file_overlay vfsE ["a", "x"] [104]).1
        ["a", "x"] [104]).map (fun v => v.pending_changes.countP isChangeFile) =
      some 2 := by decide

/-- C8 amended: for a path inside a root, accepted by the filter, and **not**
already resolving to an existing file, `add_file_overlay(p, t)` followed by
`change_file_overlay(p, t)` appends `AddFile` then `ChangeFile` — exactly one
`ChangeFile` over the two calls.  (When the file already exists, both calls
emit a `ChangeFile`; see the counterexample.) -/
theorem overlay_add_then_change_fresh (vfs : Vfs) (p : List String) (t : List Nat)
    (root : Nat) (rel : List String)
    (h : find_root vfs p = some (root, rel, none)) :
    (change_file_overlay (add_file_overlay vfs p t).1 p t).map Vfs.pending_changes
      = some (vfs.pending_changes ++
        [VfsChange.AddFile root vfs.files.length rel (normalize_newlines t).1,
         VfsChange.ChangeFile vfs.files.length (normalize_newlines t).1]) ∧
    (change_file_overlay (add_file_overlay vfs p t).1 p t).map
        (fun v => v.pending_changes.countP isChangeFile) =
      some (vfs.pending_changes.countP isChangeFile + 1) := by
  obtain ⟨hq, hff⟩ : Roots.find vfs.roots p FileType.File = some (root, rel) ∧
      find_file vfs root rel = none := by
    unfold find_root at h
    cases hq : Roots.find vfs.roots p FileType.File with
    | none => rw [hq] at h; simp at h
    | some rr =>
      obtain ⟨r1, r2⟩ := rr
      rw [hq] at h
      simp only [Option.map_some', Option.some.injEq, Prod.mk.injEq] at h
      obtain ⟨rfl, rfl, hffx⟩ := h
      exact ⟨rfl, hffx⟩
  have hadd : add_file_overlay vfs p t =
      add_file_event vfs root rel (normalize_newlines t).1
        (normalize_newlines t).2 true := by
    unfold add_file_overlay
    rw [h]
  have hfind1 : find_file (add_file_overlay vfs p t).1 root rel =
      some vfs.files.length := by
    rw [hadd]
    have heq : find_file (add_file_event vfs root rel (normalize_newlines t).1
        (normalize_newlines t).2 true).1 root rel =
        find_file (raw_add_file vfs root rel (normalize_newlines t).1
          (normalize_newlines t).2 true).1 root rel := rfl
    rw [heq]
    exact find_file_raw_add vfs root rel _ _ _ hff
  have hroots1 : (add_file_overlay vfs p t).1.roots = vfs.roots := by
    rw [hadd]
    simp [add_file_event, raw_add_file]
  have hfr1 : find_root (add_file_overlay vfs p t).1 p =
      some (root, rel, some vfs.files.length) := by
    unfold find_root
    rw [hroots1, hq, Option.map_some', hfind1]
  have hchg : change_file_overlay (add_file_overlay vfs p t).1 p t =
      some (change_file_event (add_file_overlay vfs p t).1 vfs.files.length
        (normalize_newlines t).1 true) := by
    unfold change_file_overlay
    rw [hfr1]
  have hp1 : (add_file_overlay vfs p t).1.pending_changes =
      vfs.pending_changes ++
        [VfsChange.AddFile root vfs.files.length rel (normalize_newlines t).1] := by
    rw [hadd]
    simp [add_file_event, raw_add_file]
  have hp2 : (change_file_event (add_file_overlay vfs p t).1 vfs.files.length
      (normalize_newlines t).1 true).pending_changes =
      vfs.pending_changes ++
        [VfsChange.AddFile root vfs.files.length rel (normalize_newlines t).1,
         VfsChange.ChangeFile vfs.files.length (normalize_newlines t).1] := by
    simp [change_file_event, raw_change_file, hp1]
  constructor
  · rw [hchg, Option.map_some', hp2]
  · rw [hchg, Option.map_some', hp2]
    simp [List.countP_append, List.countP_cons, isChangeFile]

/-- Witness for C8: the fresh path `a/x` in the empty VFS. -/
theorem overlay_add_then_change_fresh_witness :
    (change_file_overlay (add_file_overlay vfs0 ["a", "x"] [104]).1
        ["a", "x"] [104]).map Vfs.pending_changes =
      some [VfsChange.AddFile 0 0 ["x"] [104], VfsChange.ChangeFile 0 [104]] ∧
    (change_file_overlay (add_file_overlay vfs0 ["a", "x"] [104]).1
        ["a", "x"] [104]).map (fun v => v.pending_changes.countP isChangeFile) =
      some 1 := by
  obtain ⟨h1, h2⟩ :=
    overlay_add_then_change_fresh vfs0 ["a", "x"] [104] 0 ["x"] (by decide)
  exact ⟨h1.trans (by decide), h2.trans (by decide)⟩

end RaVfs
